import Mathlib

/-!
Verification of the core of the `shamir-secret-sharing` repository
(`src/index.js`): base decoding (`decodeValue`) and exact Lagrange
interpolation at x = 0 (`lagrangeInterpolationAtZero`).

The JavaScript source works on BigInt (unbounded integers), modelled here
by `Int`/`Nat`.  JavaScript runtime errors are modelled by an explicit
error type: the source contains no `throw` statement and no error
classification of its own, so the only failures it can produce are the
two `RangeError`s of the BigInt primitives (`BigInt(NaN)` in the decoder,
and division by zero in the rational helpers).  The classified error
names of the specification's taxonomy are included as constructors so
that claims about them can be stated; the model of the source never
produces them.
-/

namespace SSS

/-- Possible failure outcomes.  `rangeErrorNaN` is the JavaScript
`RangeError` thrown by `BigInt(NaN)`; `divisionByZero` is the
`RangeError` thrown by BigInt division by zero.  The remaining
constructors are the specification's error taxonomy (`InvalidBase`,
`InvalidDigit`, `DuplicateShareIndex`, `InsufficientShares`,
`NonIntegralResult`); the source never raises them. -/
inductive EvalErr where
  | invalidBase
  | invalidDigit
  | duplicateShareIndex
  | insufficientShares
  | nonIntegralResult
  | rangeErrorNaN
  | divisionByZero
deriving DecidableEq

instance {ε α : Type} [DecidableEq ε] [DecidableEq α] : DecidableEq (Except ε α) := fun a b =>
  match a, b with
  | Except.ok x, Except.ok y =>
      if h : x = y then isTrue (by rw [h])
      else isFalse (by intro hc; cases hc; exact h rfl)
  | Except.ok _, Except.error _ => isFalse (by intro hc; cases hc)
  | Except.error _, Except.ok _ => isFalse (by intro hc; cases hc)
  | Except.error e, Except.error f =>
      if h : e = f then isTrue (by rw [h])
      else isFalse (by intro hc; cases hc; exact h rfl)

/-! ## Base decoder (`decodeValue`, src/index.js lines 17-26) -/

/-- Code-point action of `valueStr.toLowerCase()` on one character.
`'A'..'Z'` map to `'a'..'z'`, and U+212A KELVIN SIGN maps to `'k'`
(107) — the one non-ASCII code point whose JavaScript lowercase is an
ASCII character.  All remaining code points are modelled as fixed:
JavaScript's other Unicode lowercase mappings send non-ASCII code
points to non-ASCII code points (or, for U+0130, expand to `'i'`
followed by the non-digit combining mark U+0307), all of which
`parseInt` uniformly treats as `NaN`, so decode outcomes agree. -/
def jsToLowerN (n : Nat) : Nat :=
  if 65 ≤ n ∧ n ≤ 90 then n + 32
  else if n = 8490 then 107
  else n

/-- Digit value JavaScript `parseInt` assigns to a single code point:
`'0'..'9'` give 0-9, `'a'..'z'` give 10-35, `'A'..'Z'` give 10-35;
anything else is not a digit (`NaN`). -/
def jsDigitValueN (n : Nat) : Option Nat :=
  if 48 ≤ n ∧ n ≤ 57 then some (n - 48)
  else if 97 ≤ n ∧ n ≤ 122 then some (n - 87)
  else if 65 ≤ n ∧ n ≤ 90 then some (n - 55)
  else none

/-- Model of `parseInt(char, base)` for a one-character string: radix 0 is
treated as 10; a radix outside `[2,36]` always gives `NaN`; otherwise
the digit value is accepted exactly when it is below the radix. -/
def parseIntDigit (base : Nat) (n : Nat) : Option Nat :=
  let radix := if base = 0 then 10 else base
  if radix < 2 ∨ 36 < radix then none
  else
    match jsDigitValueN n with
    | some v => if v < radix then some v else none
    | none => none

/-- Model of `decodeValue(base, valueStr)` from src/index.js: lower-case the
string, then for each character take `BigInt(parseInt(char, base))` and
accumulate `result = result * base + digit`.  When `parseInt` gives
`NaN`, `BigInt(NaN)` throws a `RangeError` (modelled as
`EvalErr.rangeErrorNaN`). -/
def decodeValue (base : Nat) (s : List Char) : Except EvalErr Int :=
  s.foldlM
    (fun result c =>
      match parseIntDigit base (jsToLowerN c.toNat) with
      | some d => Except.ok (result * (base : Int) + (d : Int))
      | none => Except.error EvalErr.rangeErrorNaN)
    (0 : Int)

/-! ## Spec-side decoder definitions

Modelled from the spec: the case-insensitive alphanumeric digit mapping
(`'0'..'9'` to 0-9, `'a'..'z'`/`'A'..'Z'` to 10-35) and the positional
interpretation of a digit string. -/

/-- Modelled from the spec: whether a code point is in the
alphanumeric digit set. -/
def isAlphanumN (n : Nat) : Bool :=
  (48 ≤ n && n ≤ 57) || (97 ≤ n && n ≤ 122) || (65 ≤ n && n ≤ 90)

/-- Modelled from the spec: whether a character is in the alphanumeric
digit set. -/
def isAlphanumChar (c : Char) : Bool := isAlphanumN c.toNat

/-- Modelled from the spec: the case-insensitive digit value of an
alphanumeric code point (0 outside the digit set). -/
def specDigitValueN (n : Nat) : Nat :=
  if 48 ≤ n ∧ n ≤ 57 then n - 48
  else if 97 ≤ n ∧ n ≤ 122 then n - 87
  else if 65 ≤ n ∧ n ≤ 90 then n - 55
  else 0

/-- Modelled from the spec: the case-insensitive digit value of an
alphanumeric character (0 for characters outside the digit set). -/
def specDigitValue (c : Char) : Nat := specDigitValueN c.toNat

/-- Modelled from the spec: the standard positional-base interpretation
of a digit list, the sum over digits left-to-right of
`digit * base ^ (number of digits remaining after it)`. -/
def positionalValue (base : Nat) : List Nat → Nat
  | [] => 0
  | d :: ds => d * base ^ ds.length + positionalValue base ds

/-! ## Exact Lagrange evaluator (src/index.js lines 35-95) -/

/-- One `(x, y)` share point (both BigInt in the source). -/
structure Point where
  x : Int
  y : Int
deriving DecidableEq

/-- A fraction as the source represents it: a pair
`[numerator, denominator]` of BigInt. -/
abbrev Frac := Int × Int

/-- Literal translation of the Euclidean `while` loop in `gcd`
(src/index.js lines 40-45) after both arguments have been replaced by
their absolute values: `while (b !== 0n) { [a, b] = [b, a % b]; }`. -/
def gcdLoop (a b : Nat) : Nat :=
  if h : b = 0 then a else gcdLoop b (a % b)
termination_by b
decreasing_by exact Nat.mod_lt a (Nat.pos_of_ne_zero h)

/-- Model of `gcd(a, b)` from src/index.js: both arguments are replaced by their
absolute values and then the Euclidean loop runs.  We use `Nat.gcd`,
which equals the literal loop `gcdLoop` by theorem `gcdLoop_eq_gcd`
below (stated that way so that concrete inputs evaluate in the
kernel). -/
def jsGcd (a b : Int) : Int := (Nat.gcd a.natAbs b.natAbs : Int)

/-- Model of `simplify(num, den)` from src/index.js: flip both signs if the
denominator is negative, then divide both components by
`gcd(|num|, den)`.  BigInt division (`/`) truncates toward zero,
modelled by `Int.tdiv`; when the gcd is zero (num = den = 0) the
division throws the division-by-zero `RangeError`. -/
def simplify (num den : Int) : Except EvalErr Frac :=
  let num' := if den < 0 then -num else num
  let den' := if den < 0 then -den else den
  let g := jsGcd (if num' < 0 then -num' else num') den'
  if g = 0 then Except.error EvalErr.divisionByZero
  else Except.ok (num'.tdiv g, den'.tdiv g)

/-- Model of `addFrac([n1,d1],[n2,d2])` from src/index.js. -/
def addFrac (f1 f2 : Frac) : Except EvalErr Frac :=
  simplify (f1.1 * f2.2 + f2.1 * f1.2) (f1.2 * f2.2)

/-- Model of `mulFrac([n1,d1],[n2,d2])` from src/index.js. -/
def mulFrac (f1 f2 : Frac) : Except EvalErr Frac :=
  simplify (f1.1 * f2.1) (f1.2 * f2.2)

/-- Body of the inner `j` loop of `lagrangeInterpolationAtZero`: skip
`j = i`, otherwise multiply `num` by `(0 - x_j)` and `den` by
`(x_i - x_j)`. -/
def basisStep (i : Nat) (xi : Int) (nd : Frac) (jq : Nat × Point) : Frac :=
  if i = jq.1 then nd else (nd.1 * (0 - jq.2.x), nd.2 * (xi - jq.2.x))

/-- The inner `j` loop (src/index.js lines 69-78): accumulate the basis
numerator and denominator over all positions `j ≠ i`. -/
def basisNumDen (pts : List Point) (i : Nat) (xi : Int) : Frac :=
  pts.enum.foldl (basisStep i xi) (1, 1)

/-- Body of the outer `i` loop (src/index.js lines 63-88): form the
basis fraction with `simplify`, multiply by `y_i`, add to the running
result. -/
def lagrangeStep (pts : List Point) (result : Frac) (ip : Nat × Point) :
    Except EvalErr Frac := do
  let nd := basisNumDen pts ip.1 ip.2.x
  let li ← simplify nd.1 nd.2
  let term ← mulFrac (ip.2.y, 1) li
  addFrac result term

/-- Model of `lagrangeInterpolationAtZero(points)` from src/index.js: run the
outer loop starting from the fraction `[0, 1]`, then return
`result[0] / result[1]` (BigInt division truncates toward zero and
throws on a zero denominator).  The `console.warn` on a non-unit
denominator has no effect on the returned value. -/
def lagrangeInterpolationAtZero (pts : List Point) : Except EvalErr Int := do
  let result ← pts.enum.foldlM (lagrangeStep pts) (((0 : Int), (1 : Int)) : Frac)
  if result.2 = 0 then Except.error EvalErr.divisionByZero
  else Except.ok (result.1.tdiv result.2)

/-! ## Proof-side definitions -/

/-- The normal-form invariant the spec states for fractions:
positive denominator, coprime components, and the canonical pair
`(0, 1)` whenever the numerator is zero. -/
def IsNormalized (nd : Frac) : Prop :=
  0 < nd.2 ∧ Int.gcd nd.1 nd.2 = 1 ∧ (nd.1 = 0 → nd = (0, 1))

/-- The fraction pair representing a rational number in lowest terms
with positive denominator (exactly `Rat`'s canonical form). -/
def fracOf (q : ℚ) : Frac := (q.num, (q.den : Int))

/-- The exact rational value of the Lagrange basis polynomial at 0 for
centre abscissa `xi`, given the list of the other points. -/
def basisQ (others : List Point) (xi : Int) : ℚ :=
  (((others.map (fun q => 0 - q.x)).prod : Int) : ℚ) /
    (((others.map (fun q => xi - q.x)).prod : Int) : ℚ)

/-- The exact rational value of one Lagrange term `y_i * L_i(0)`. -/
def termQ (others : List Point) (p : Point) : ℚ :=
  (p.y : ℚ) * basisQ others p.x

/-- The exact rational value of the whole Lagrange sum at 0.  Each
point contributes a term over the list with (one occurrence of) itself
removed; for lists with pairwise distinct x this matches the evaluator,
and it is invariant under permutation of the list. -/
def idealSum (pts : List Point) : ℚ :=
  (pts.map (fun p => termQ (pts.erase p) p)).sum

/-! ## Theorems: the gcd loop -/

/-- The Euclidean loop of `gcd` terminates on every input and computes
the greatest common divisor. -/
theorem gcdLoop_eq_gcd (a b : Nat) : gcdLoop a b = Nat.gcd a b := by
  induction b using Nat.strong_induction_on generalizing a with
  | _ b ih =>
    rw [gcdLoop]
    split
    · rename_i hb
      simp [hb]
    · rename_i hb
      rw [ih (a % b) (Nat.mod_lt a (Nat.pos_of_ne_zero hb)) b]
      rw [Nat.gcd_comm b (a % b), ← Nat.gcd_rec, Nat.gcd_comm]

/-- Theorem that `jsGcd` is the literal loop translation applied to the absolute
values, as in the source. -/
theorem jsGcd_eq_loop (a b : Int) : jsGcd a b = (gcdLoop a.natAbs b.natAbs : Int) := by
  rw [jsGcd, gcdLoop_eq_gcd]

/-! ## Concrete-evaluation claims -/

/-- C2 counterexample: on the points `{(1,4),(2,7),(3,12)}` the
evaluator does not return 2.  (These points lie on `x² + 3`, not on the
spec's `x² + x + 2`, whose values at 2 and 3 are 8 and 14.) -/
theorem lagrange_known_points_ne_two :
    lagrangeInterpolationAtZero [⟨1, 4⟩, ⟨2, 7⟩, ⟨3, 12⟩] ≠ Except.ok 2 := by
  decide

/-- C2 (amended): on the points `{(1,4),(2,7),(3,12)}` (the polynomial
`x² + 3`) the evaluator returns exactly 3. -/
theorem lagrange_known_points_eq_three :
    lagrangeInterpolationAtZero [⟨1, 4⟩, ⟨2, 7⟩, ⟨3, 12⟩] = Except.ok 3 := by
  decide

/-- C4: on `{(1,1),(3,2)}` the interpolant at 0 is the non-integral
rational 1/2; the final fraction is `[1, 2]`, and the code only prints
a warning and returns the truncated quotient `1n / 2n = 0` instead of
raising a distinguishable `NonIntegralResult` error. -/
theorem lagrange_truncates_non_integral :
    lagrangeInterpolationAtZero [⟨1, 1⟩, ⟨3, 2⟩] = Except.ok 0 := by
  decide

/-- C5: on the duplicate-x input `{(2,5),(2,9)}` the evaluator reaches
a raw BigInt division by zero (`0n / 0n` inside `simplify`) and fails
with that unclassified `RangeError`, not with a classified
`DuplicateShareIndex` error. -/
theorem lagrange_duplicate_division_by_zero :
    lagrangeInterpolationAtZero [⟨2, 5⟩, ⟨2, 9⟩] = Except.error EvalErr.divisionByZero := by
  decide

/-- C8: on an empty point list (k = 0) the loop body never runs, the
result fraction stays `[0, 1]`, and the evaluator returns 0 instead of
rejecting the input with `InsufficientShares`. -/
theorem lagrange_empty_returns_zero :
    lagrangeInterpolationAtZero [] = Except.ok 0 := by
  decide

/-- C10: for every base, decoding the empty digit string returns 0
without any error: the accumulation loop body never runs. -/
theorem decodeValue_nil (base : Nat) : decodeValue base [] = Except.ok 0 := rfl

/-- C7 counterexample: the digit `'5'` does not fit base 2; the decoder
fails with the unclassified `RangeError` of `BigInt(NaN)`, not with a
classified `InvalidDigit` error. -/
theorem decode_invalid_digit_not_classified :
    decodeValue 2 ['5'] = Except.error EvalErr.rangeErrorNaN ∧
      decodeValue 2 ['5'] ≠ Except.error EvalErr.invalidDigit := by
  constructor
  · decide
  · decide

/-! ## The normalization performed by `simplify` -/

/-- A coprime pair with positive denominator is exactly the canonical
numerator/denominator pair of the rational number it represents. -/
theorem rat_num_den_eq {n d : Int} (hd : 0 < d) (hg : Int.gcd n d = 1) :
    ((n : ℚ) / (d : ℚ)).num = n ∧ (((n : ℚ) / (d : ℚ)).den : Int) = d := by
  have hdnz : d.natAbs ≠ 0 := by
    rw [← Nat.pos_iff_ne_zero, Int.natAbs_pos]
    exact ne_of_gt hd
  have hco : n.natAbs.Coprime d.natAbs := hg
  have habs : ((d.natAbs : Nat) : Int) = d := Int.natAbs_of_nonneg hd.le
  set q : ℚ := Rat.mk' n d.natAbs hdnz hco with hqdef
  have hnum : q.num = n := rfl
  have hden : (q.den : Int) = d := habs
  have hq : (n : ℚ) / (d : ℚ) = q := by
    have hcast : (d : ℚ) = (q.den : ℚ) := by
      rw [← habs, Int.cast_natCast]
    rw [← hnum, hcast]
    exact Rat.num_div_den q
  rw [hq, hnum, hden]
  exact ⟨rfl, rfl⟩

/-- On a positive denominator `simplify` performs no sign flip and
returns the canonical pair of `num / den`. -/
theorem simplify_eq_ok_of_pos {num den : Int} (hd : 0 < den) :
    simplify num den = Except.ok (fracOf ((num : ℚ) / (den : ℚ))) := by
  have hdn : ¬ den < 0 := not_lt.mpr hd.le
  have habs : (if num < 0 then -num else num).natAbs = num.natAbs := by
    split
    · exact Int.natAbs_neg num
    · rfl
  have hgdef : jsGcd (if num < 0 then -num else num) den = (Int.gcd num den : Int) := by
    rw [jsGcd, habs]
    rfl
  set G : Nat := Int.gcd num den with hG
  have hGpos : 0 < G := by
    rcases Nat.eq_zero_or_pos G with h0 | hpos
    · rw [hG] at h0
      exact absurd (Int.gcd_eq_zero_iff.mp h0).2 hd.ne'
    · exact hpos
  have hGne : ¬ ((G : Int) = 0) := by
    simpa using Nat.pos_iff_ne_zero.mp hGpos
  have hdvd1 : (G : Int) ∣ num := Int.gcd_dvd_left
  have hdvd2 : (G : Int) ∣ den := Int.gcd_dvd_right
  obtain ⟨a, ha⟩ := hdvd1
  obtain ⟨b, hb⟩ := hdvd2
  have hGne' : (G : Int) ≠ 0 := hGne
  have hnum' : num.tdiv (G : Int) = a := by
    rw [Int.tdiv_eq_ediv_of_dvd ⟨a, ha⟩, ha, Int.mul_ediv_cancel_left a hGne']
  have hden' : den.tdiv (G : Int) = b := by
    rw [Int.tdiv_eq_ediv_of_dvd ⟨b, hb⟩, hb, Int.mul_ediv_cancel_left b hGne']
  have hbpos : 0 < b := by
    by_contra hle
    push_neg at hle
    have : (G : Int) * b ≤ 0 :=
      mul_nonpos_iff.mpr (Or.inl ⟨by exact_mod_cast hGpos.le, hle⟩)
    rw [← hb] at this
    exact absurd hd (not_lt.mpr this)
  have hcop : Int.gcd a b = 1 := by
    have h := Int.gcd_div_gcd_div_gcd (i := num) (j := den) (by exact_mod_cast hGpos)
    rw [← hG] at h
    rw [ha, hb, Int.mul_ediv_cancel_left a hGne', Int.mul_ediv_cancel_left b hGne'] at h
    exact h
  have hval : (a : ℚ) / (b : ℚ) = (num : ℚ) / (den : ℚ) := by
    rw [ha, hb]
    push_cast
    rw [mul_div_mul_left]
    exact_mod_cast hGne'
  have hfrac : fracOf ((num : ℚ) / (den : ℚ)) = (a, b) := by
    rw [← hval, fracOf]
    obtain ⟨h1, h2⟩ := rat_num_den_eq hbpos hcop
    rw [h1, h2]
  rw [simplify]
  simp only [hdn, if_false, hgdef, ← hG, hGne, hnum', hden', hfrac]

/-- For every nonzero denominator `simplify` succeeds and returns the
canonical pair of the represented rational number. -/
theorem simplify_eq_ok {num den : Int} (hd : den ≠ 0) :
    simplify num den = Except.ok (fracOf ((num : ℚ) / (den : ℚ))) := by
  rcases lt_or_gt_of_ne hd with hneg | hpos
  · have hflip : simplify num den = simplify (-num) (-den) := by
      rw [simplify, simplify]
      have h1 : den < 0 := hneg
      have h2 : ¬ (-den < 0) := by omega
      simp only [h1, if_true, h2, if_false]
    rw [hflip, simplify_eq_ok_of_pos (by omega : (0 : Int) < -den)]
    have : ((-num : Int) : ℚ) / ((-den : Int) : ℚ) = (num : ℚ) / (den : ℚ) := by
      push_cast
      exact neg_div_neg_eq (num : ℚ) (den : ℚ)
    rw [this]
  · exact simplify_eq_ok_of_pos hpos

/-- Every canonical pair produced from a rational number satisfies the
spec's normal-form invariant. -/
theorem fracOf_isNormalized (q : ℚ) : IsNormalized (fracOf q) := by
  refine ⟨?_, ?_, ?_⟩
  · show (0 : Int) < (q.den : Int)
    exact_mod_cast q.den_pos
  · have h := q.reduced
    simpa [fracOf, Int.gcd, Int.natAbs_ofNat] using h
  · intro h0
    have hq : q = 0 := Rat.num_eq_zero.mp (by simpa [fracOf] using h0)
    simp [fracOf, hq]

/-- C6: every fraction returned by `simplify`, `addFrac` or `mulFrac`
from inputs with nonzero denominators is in normal form: positive
denominator, coprime numerator and denominator, and canonical `(0, 1)`
on a zero numerator. -/
theorem frac_ops_normalized (num den n1 d1 n2 d2 : Int)
    (hden : den ≠ 0) (h1 : d1 ≠ 0) (h2 : d2 ≠ 0) :
    (∃ nd, simplify num den = Except.ok nd ∧ IsNormalized nd) ∧
    (∃ nd, addFrac (n1, d1) (n2, d2) = Except.ok nd ∧ IsNormalized nd) ∧
    (∃ nd, mulFrac (n1, d1) (n2, d2) = Except.ok nd ∧ IsNormalized nd) := by
  refine ⟨⟨_, simplify_eq_ok hden, fracOf_isNormalized _⟩, ?_, ?_⟩
  · exact ⟨_, by rw [addFrac]; exact simplify_eq_ok (mul_ne_zero h1 h2),
      fracOf_isNormalized _⟩
  · exact ⟨_, by rw [mulFrac]; exact simplify_eq_ok (mul_ne_zero h1 h2),
      fracOf_isNormalized _⟩

/-- C6 witness at concrete inputs. -/
theorem frac_ops_normalized_witness :
    (∃ nd, simplify 6 (-4) = Except.ok nd ∧ IsNormalized nd) ∧
    (∃ nd, addFrac (1, 2) (1, 3) = Except.ok nd ∧ IsNormalized nd) ∧
    (∃ nd, mulFrac (1, 2) (1, 3) = Except.ok nd ∧ IsNormalized nd) :=
  frac_ops_normalized 6 (-4) 1 2 1 3 (by decide) (by decide) (by decide)

/-! ## Theorems: the decoder -/

theorem except_bind_ok {ε α β : Type} (v : α) (g : α → Except ε β) :
    ((Except.ok v : Except ε α) >>= g) = g v := rfl

theorem except_bind_err {ε α β : Type} (e : ε) (g : α → Except ε β) :
    ((Except.error e : Except ε α) >>= g) = Except.error e := rfl

set_option maxHeartbeats 1000000 in
/-- On an alphanumeric code point, lower-casing followed by the
`parseInt` digit table gives the spec's case-insensitive digit value. -/
theorem jsDigitValueN_alpha_n (n : Nat) (ha : isAlphanumN n = true) :
    jsDigitValueN (jsToLowerN n) = some (specDigitValueN n) := by
  simp only [isAlphanumN, Bool.or_eq_true, Bool.and_eq_true, decide_eq_true_eq] at ha
  simp only [jsToLowerN, jsDigitValueN, specDigitValueN]
  split_ifs <;>
    first
      | rfl
      | (exfalso; omega)

/-- On an alphanumeric character, lower-casing followed by the
`parseInt` digit table gives the spec's case-insensitive digit value. -/
theorem jsDigitValueN_alpha (c : Char) (ha : isAlphanumChar c = true) :
    jsDigitValueN (jsToLowerN c.toNat) = some (specDigitValue c) :=
  jsDigitValueN_alpha_n c.toNat ha

/-- On a non-alphanumeric ASCII code point, the `parseInt` digit table
gives `NaN`.  (The ASCII bound matters: the non-alphanumeric U+212A
lower-cases to the digit `'k'`.) -/
theorem jsDigitValueN_none_n (n : Nat) (ha : isAlphanumN n = false)
    (hascii : n < 128) :
    jsDigitValueN (jsToLowerN n) = none := by
  simp only [isAlphanumN, Bool.or_eq_false_iff, Bool.and_eq_false_iff,
    decide_eq_false_iff_not] at ha
  simp only [jsToLowerN, jsDigitValueN]
  split_ifs <;>
    first
      | rfl
      | (exfalso; omega)

/-- On a non-alphanumeric ASCII character, the `parseInt` digit table
gives `NaN`. -/
theorem jsDigitValueN_none (c : Char) (ha : isAlphanumChar c = false)
    (hascii : c.toNat < 128) :
    jsDigitValueN (jsToLowerN c.toNat) = none :=
  jsDigitValueN_none_n c.toNat ha hascii

/-- On a base in `[2,36]` and an alphanumeric character whose digit
value is below the base, `parseInt` succeeds with that digit value. -/
theorem parseIntDigit_alpha {base : Nat} (hb2 : 2 ≤ base) (hb36 : base ≤ 36)
    (c : Char) (ha : isAlphanumChar c = true) (hv : specDigitValue c < base) :
    parseIntDigit base (jsToLowerN c.toNat) = some (specDigitValue c) := by
  have hbne : ¬ base = 0 := by omega
  simp only [parseIntDigit, jsDigitValueN_alpha c ha]
  rw [if_neg hbne, if_neg (show ¬ (base < 2 ∨ 36 < base) by omega), if_pos hv]

/-- On an invalid ASCII character (not alphanumeric, or digit value at
least the base), `parseInt` gives `NaN`. -/
theorem parseIntDigit_invalid {base : Nat} (hb2 : 2 ≤ base) (hb36 : base ≤ 36)
    (c : Char) (hascii : c.toNat < 128)
    (h : isAlphanumChar c = false ∨ (isAlphanumChar c = true ∧ base ≤ specDigitValue c)) :
    parseIntDigit base (jsToLowerN c.toNat) = none := by
  have hbne : ¬ base = 0 := by omega
  rcases h with ha | ⟨ha, hge⟩
  · simp only [parseIntDigit, jsDigitValueN_none c ha hascii]
    split_ifs <;> rfl
  · simp only [parseIntDigit, jsDigitValueN_alpha c ha]
    rw [if_neg hbne, if_neg (show ¬ (base < 2 ∨ 36 < base) by omega),
      if_neg (show ¬ specDigitValue c < base by omega)]

/-- Accumulator-generalized form of the decoding loop on all-valid
digit strings. -/
theorem decode_fold (base : Nat) (hb2 : 2 ≤ base) (hb36 : base ≤ 36) :
    ∀ (s : List Char) (acc : Int),
      (∀ c ∈ s, isAlphanumChar c = true ∧ specDigitValue c < base) →
      (s.foldlM
        (fun result c =>
          match parseIntDigit base (jsToLowerN c.toNat) with
          | some d => Except.ok (result * (base : Int) + (d : Int))
          | none => Except.error EvalErr.rangeErrorNaN)
        acc : Except EvalErr Int)
        = Except.ok (acc * (base : Int) ^ s.length
            + ((positionalValue base (s.map specDigitValue) : Nat) : Int)) := by
  intro s
  induction s with
  | nil =>
    intro acc _
    rw [List.foldlM_nil]
    show Except.ok acc = _
    simp [positionalValue]
  | cons c s ih =>
    intro acc h
    have hc := h c (List.mem_cons_self c s)
    have htail : ∀ c ∈ s, isAlphanumChar c = true ∧ specDigitValue c < base :=
      fun x hx => h x (List.mem_cons_of_mem c hx)
    rw [List.foldlM_cons]
    simp only [parseIntDigit_alpha hb2 hb36 c hc.1 hc.2, except_bind_ok]
    rw [ih (acc * (base : Int) + (specDigitValue c : Int)) htail]
    congr 1
    simp only [List.map_cons, positionalValue, List.length_map, List.length_cons]
    push_cast
    ring

/-- C1: for every base in `[2,36]` and every digit string of
alphanumeric characters with digit value below the base, `decodeValue`
returns the standard positional-base interpretation of the string. -/
theorem decodeValue_positional (base : Nat) (hb2 : 2 ≤ base) (hb36 : base ≤ 36)
    (s : List Char)
    (h : ∀ c ∈ s, isAlphanumChar c = true ∧ specDigitValue c < base) :
    decodeValue base s
      = Except.ok ((positionalValue base (s.map specDigitValue) : Nat) : Int) := by
  rw [decodeValue, decode_fold base hb2 hb36 s 0 h]
  simp

/-- C1 witness: `decode(16, "ff") = 255`. -/
theorem decodeValue_positional_witness : decodeValue 16 ['f', 'f'] = Except.ok 255 := by
  rw [decodeValue_positional 16 (by decide) (by decide) ['f', 'f'] (by decide)]
  decide

/-- Accumulator-generalized form of the decoding loop when some
character fails to parse: the loop aborts with the `RangeError` of
`BigInt(NaN)` at the first such character. -/
theorem decode_fold_err (base : Nat) :
    ∀ (s : List Char) (acc : Int),
      (∃ c ∈ s, parseIntDigit base (jsToLowerN c.toNat) = none) →
      (s.foldlM
        (fun result c =>
          match parseIntDigit base (jsToLowerN c.toNat) with
          | some d => Except.ok (result * (base : Int) + (d : Int))
          | none => Except.error EvalErr.rangeErrorNaN)
        acc : Except EvalErr Int)
        = Except.error EvalErr.rangeErrorNaN := by
  intro s
  induction s with
  | nil =>
    intro acc h
    obtain ⟨c, hc, _⟩ := h
    exact absurd hc (List.not_mem_nil c)
  | cons c s ih =>
    intro acc h
    rw [List.foldlM_cons]
    cases hd : parseIntDigit base (jsToLowerN c.toNat) with
    | none =>
      simp only [hd, except_bind_err]
    | some d =>
      simp only [hd, except_bind_ok]
      apply ih
      obtain ⟨x, hx, hbad⟩ := h
      rcases List.mem_cons.mp hx with rfl | hxs
      · exact absurd hbad (by rw [hd]; exact Option.some_ne_none d)
      · exact ⟨x, hxs, hbad⟩

/-- C7 (amended): for every base in `[2,36]` and every ASCII digit
string, if some character is not alphanumeric or has digit value at
least the base, the decoder fails — but with the unclassified
JavaScript `RangeError` of `BigInt(NaN)`, not with a classified
`InvalidDigit` error.  The ASCII restriction is where the spec's
alphanumeric/digit-value vocabulary is exact: outside ASCII,
JavaScript's Unicode lowercase mapping can make a non-alphanumeric
character decodable (see `decode_kelvin_sign`). -/
theorem decode_invalid_digit_unclassified (base : Nat) (hb2 : 2 ≤ base)
    (hb36 : base ≤ 36) (s : List Char)
    (hascii : ∀ c ∈ s, c.toNat < 128)
    (h : ∃ c ∈ s,
      isAlphanumChar c = false ∨ (isAlphanumChar c = true ∧ base ≤ specDigitValue c)) :
    decodeValue base s = Except.error EvalErr.rangeErrorNaN := by
  rw [decodeValue]
  apply decode_fold_err
  obtain ⟨c, hc, hbad⟩ := h
  exact ⟨c, hc, parseIntDigit_invalid hb2 hb36 c (hascii c hc) hbad⟩

/-- C7 witness: decoding `"5"` in base 2 hits the `RangeError`. -/
theorem decode_invalid_digit_unclassified_witness :
    decodeValue 2 ['5'] = Except.error EvalErr.rangeErrorNaN :=
  decode_invalid_digit_unclassified 2 (by decide) (by decide) ['5'] (by decide) (by decide)

/-- Outside ASCII the decoder can succeed on a non-alphanumeric
character: U+212A KELVIN SIGN lower-cases to `'k'`, digit value 20, so
in base 36 it decodes with no error — which is why the statement above
is restricted to ASCII strings. -/
theorem decode_kelvin_sign :
    decodeValue 36 [Char.ofNat 8490] = Except.ok 20 ∧
      isAlphanumChar (Char.ofNat 8490) = false := by
  constructor
  · decide
  · decide

/-! ## Theorems: totality and the possible outcomes -/

theorem ite_ok_or_err {c : Prop} [inst : Decidable c] (x : Frac) :
    (∃ nd, (if c then Except.error EvalErr.divisionByZero else Except.ok x)
        = Except.ok nd) ∨
      (if c then Except.error EvalErr.divisionByZero else Except.ok x)
        = Except.error EvalErr.divisionByZero := by
  split
  · exact Or.inr rfl
  · exact Or.inl ⟨x, rfl⟩

theorem simplify_ok_or_div0 (num den : Int) :
    (∃ nd, simplify num den = Except.ok nd) ∨
      simplify num den = Except.error EvalErr.divisionByZero := by
  simp only [simplify]
  exact ite_ok_or_err _

theorem addFrac_ok_or_div0 (f1 f2 : Frac) :
    (∃ nd, addFrac f1 f2 = Except.ok nd) ∨
      addFrac f1 f2 = Except.error EvalErr.divisionByZero := by
  rw [addFrac]
  exact simplify_ok_or_div0 _ _

theorem mulFrac_ok_or_div0 (f1 f2 : Frac) :
    (∃ nd, mulFrac f1 f2 = Except.ok nd) ∨
      mulFrac f1 f2 = Except.error EvalErr.divisionByZero := by
  rw [mulFrac]
  exact simplify_ok_or_div0 _ _

theorem lagrangeStep_ok_or_div0 (pts : List Point) (acc : Frac) (ip : Nat × Point) :
    (∃ nd, lagrangeStep pts acc ip = Except.ok nd) ∨
      lagrangeStep pts acc ip = Except.error EvalErr.divisionByZero := by
  simp only [lagrangeStep]
  rcases simplify_ok_or_div0 (basisNumDen pts ip.1 ip.2.x).1
      (basisNumDen pts ip.1 ip.2.x).2 with ⟨li, hli⟩ | herr
  · rw [hli, except_bind_ok]
    rcases mulFrac_ok_or_div0 (ip.2.y, 1) li with ⟨t, ht⟩ | herr2
    · rw [ht, except_bind_ok]
      exact addFrac_ok_or_div0 acc t
    · rw [herr2, except_bind_err]
      exact Or.inr rfl
  · rw [herr, except_bind_err]
    exact Or.inr rfl

theorem lagrangeFold_ok_or_div0 (pts : List Point) :
    ∀ (l : List (Nat × Point)) (acc : Frac),
      (∃ nd, l.foldlM (lagrangeStep pts) acc = Except.ok nd) ∨
        l.foldlM (lagrangeStep pts) acc = Except.error EvalErr.divisionByZero := by
  intro l
  induction l with
  | nil =>
    intro acc
    exact Or.inl ⟨acc, rfl⟩
  | cons ip l ih =>
    intro acc
    rw [List.foldlM_cons]
    rcases lagrangeStep_ok_or_div0 pts acc ip with ⟨nd, hnd⟩ | herr
    · rw [hnd, except_bind_ok]
      exact ih nd
    · rw [herr, except_bind_err]
      exact Or.inr rfl

theorem decodeFold_ok_or_nan (base : Nat) :
    ∀ (s : List Char) (acc : Int),
      (∃ v, (s.foldlM
        (fun result c =>
          match parseIntDigit base (jsToLowerN c.toNat) with
          | some d => Except.ok (result * (base : Int) + (d : Int))
          | none => Except.error EvalErr.rangeErrorNaN)
        acc : Except EvalErr Int) = Except.ok v) ∨
      (s.foldlM
        (fun result c =>
          match parseIntDigit base (jsToLowerN c.toNat) with
          | some d => Except.ok (result * (base : Int) + (d : Int))
          | none => Except.error EvalErr.rangeErrorNaN)
        acc : Except EvalErr Int) = Except.error EvalErr.rangeErrorNaN := by
  intro s
  induction s with
  | nil =>
    intro acc
    exact Or.inl ⟨acc, rfl⟩
  | cons c s ih =>
    intro acc
    rw [List.foldlM_cons]
    cases hd : parseIntDigit base (jsToLowerN c.toNat) with
    | none =>
      simp only [hd, except_bind_err]
      exact Or.inr trivial
    | some d =>
      simp only [hd, except_bind_ok]
      exact ih (acc * (base : Int) + (d : Int))

/-- C9: every computation of the model is total and terminates.  The
Euclidean `while` loop of `gcd` (the one loop whose termination is not
structural) terminates on all inputs and computes the gcd; the decoder
always returns either a value or the `BigInt(NaN)` `RangeError`; the
evaluator always returns either a value or the division-by-zero
`RangeError`. -/
theorem computations_terminate :
    (∀ a b : Nat, gcdLoop a b = Nat.gcd a b) ∧
    (∀ (base : Nat) (s : List Char),
      (∃ v, decodeValue base s = Except.ok v) ∨
        decodeValue base s = Except.error EvalErr.rangeErrorNaN) ∧
    (∀ pts : List Point,
      (∃ v, lagrangeInterpolationAtZero pts = Except.ok v) ∨
        lagrangeInterpolationAtZero pts = Except.error EvalErr.divisionByZero) := by
  refine ⟨gcdLoop_eq_gcd, ?_, ?_⟩
  · intro base s
    rw [decodeValue]
    exact decodeFold_ok_or_nan base s 0
  · intro pts
    simp only [lagrangeInterpolationAtZero]
    rcases lagrangeFold_ok_or_div0 pts pts.enum ((0 : Int), (1 : Int)) with ⟨nd, hnd⟩ | herr
    · rw [hnd, except_bind_ok]
      by_cases h0 : nd.2 = 0
      · rw [if_pos h0]
        exact Or.inr rfl
      · rw [if_neg h0]
        exact Or.inl ⟨_, rfl⟩
    · rw [herr, except_bind_err]
      exact Or.inr rfl

/-! ## Theorems: the basis products -/

/-- When the skipped index lies strictly below every index of the
enumerated suffix, the inner loop multiplies in every element. -/
theorem foldl_basisStep_ge (i : Nat) (xi : Int) :
    ∀ (pts : List Point) (k : Nat), i < k → ∀ (a b : Int),
      (List.enumFrom k pts).foldl (basisStep i xi) (a, b) =
        (a * ((pts.map (fun q => 0 - q.x)).prod),
         b * ((pts.map (fun q => xi - q.x)).prod)) := by
  intro pts
  induction pts with
  | nil =>
    intro k _ a b
    simp [List.enumFrom]
  | cons p rest ih =>
    intro k hk a b
    have hne : ¬ i = k := by omega
    rw [List.enumFrom_cons, List.foldl_cons]
    simp only [basisStep]
    rw [if_neg hne]
    rw [ih (k + 1) (by omega) (a * (0 - p.x)) (b * (xi - p.x))]
    simp only [List.map_cons, List.prod_cons, Prod.mk.injEq]
    constructor <;> ring

/-- The inner loop over the suffix enumerated from `k`, skipping the
absolute index `k + m`, computes the two products over the suffix with
its `m`-th element removed. -/
theorem foldl_basisStep_eq (i : Nat) (xi : Int) :
    ∀ (pts : List Point) (k m : Nat), i = k + m → ∀ (a b : Int),
      (List.enumFrom k pts).foldl (basisStep i xi) (a, b) =
        (a * (((pts.eraseIdx m).map (fun q => 0 - q.x)).prod),
         b * (((pts.eraseIdx m).map (fun q => xi - q.x)).prod)) := by
  intro pts
  induction pts with
  | nil =>
    intro k m _ a b
    simp [List.enumFrom, List.eraseIdx]
  | cons p rest ih =>
    intro k m him a b
    rw [List.enumFrom_cons, List.foldl_cons]
    cases m with
    | zero =>
      have heq : i = k := by omega
      simp only [basisStep]
      rw [if_pos heq, List.eraseIdx_cons_zero]
      exact foldl_basisStep_ge i xi rest (k + 1) (by omega) a b
    | succ m' =>
      have hne : ¬ i = k := by omega
      simp only [basisStep]
      rw [if_neg hne, List.eraseIdx_cons_succ]
      rw [ih (k + 1) m' (by omega) (a * (0 - p.x)) (b * (xi - p.x))]
      simp only [List.map_cons, List.prod_cons, Prod.mk.injEq]
      constructor <;> ring

/-- The inner `j` loop computes exactly the two basis products over the
list with the `i`-th point removed. -/
theorem basisNumDen_eq (pts : List Point) (i : Nat) (xi : Int) :
    basisNumDen pts i xi =
      (((pts.eraseIdx i).map (fun q => 0 - q.x)).prod,
       ((pts.eraseIdx i).map (fun q => xi - q.x)).prod) := by
  rw [basisNumDen, List.enum_eq_enumFrom]
  rw [foldl_basisStep_eq i xi pts 0 i (by omega) 1 1]
  simp only [one_mul]

/-! ## Theorems: exact rational arithmetic on canonical pairs -/

theorem fracOf_intCast (n : Int) : fracOf ((n : Int) : ℚ) = (n, 1) := by
  simp [fracOf, Rat.num_intCast, Rat.den_intCast]

theorem rat_add_formula (q1 q2 : ℚ) :
    ((q1.num * (q2.den : Int) + q2.num * (q1.den : Int) : Int) : ℚ)
        / (((q1.den : Int) * (q2.den : Int) : Int) : ℚ)
      = q1 + q2 := by
  have h1 : ((q1.den : Nat) : ℚ) ≠ 0 := Nat.cast_ne_zero.mpr q1.den_nz
  have h2 : ((q2.den : Nat) : ℚ) ≠ 0 := Nat.cast_ne_zero.mpr q2.den_nz
  have key : (q1.num : ℚ) / (q1.den : ℚ) + (q2.num : ℚ) / (q2.den : ℚ)
      = ((q1.num : ℚ) * q2.den + (q1.den : ℚ) * q2.num) / ((q1.den : ℚ) * q2.den) :=
    div_add_div _ _ h1 h2
  rw [Rat.num_div_den, Rat.num_div_den] at key
  push_cast
  rw [key]
  ring

theorem rat_mul_formula (q1 q2 : ℚ) :
    ((q1.num * q2.num : Int) : ℚ) / (((q1.den : Int) * (q2.den : Int) : Int) : ℚ)
      = q1 * q2 := by
  have key : (q1.num : ℚ) / (q1.den : ℚ) * ((q2.num : ℚ) / (q2.den : ℚ))
      = (q1.num : ℚ) * q2.num / ((q1.den : ℚ) * q2.den) :=
    div_mul_div_comm _ _ _ _
  rw [Rat.num_div_den, Rat.num_div_den] at key
  push_cast
  rw [key]

theorem addFrac_fracOf (q1 q2 : ℚ) :
    addFrac (fracOf q1) (fracOf q2) = Except.ok (fracOf (q1 + q2)) := by
  have hd : ((q1.den : Int) * (q2.den : Int)) ≠ 0 :=
    mul_ne_zero (Int.natCast_ne_zero.mpr q1.den_nz) (Int.natCast_ne_zero.mpr q2.den_nz)
  rw [addFrac]
  show simplify (q1.num * (q2.den : Int) + q2.num * (q1.den : Int))
      ((q1.den : Int) * (q2.den : Int)) = _
  rw [simplify_eq_ok hd, rat_add_formula q1 q2]

theorem mulFrac_fracOf (q1 q2 : ℚ) :
    mulFrac (fracOf q1) (fracOf q2) = Except.ok (fracOf (q1 * q2)) := by
  have hd : ((q1.den : Int) * (q2.den : Int)) ≠ 0 :=
    mul_ne_zero (Int.natCast_ne_zero.mpr q1.den_nz) (Int.natCast_ne_zero.mpr q2.den_nz)
  rw [mulFrac]
  show simplify (q1.num * q2.num) ((q1.den : Int) * (q2.den : Int)) = _
  rw [simplify_eq_ok hd, rat_mul_formula q1 q2]

/-! ## Theorems: lists with pairwise distinct x -/

theorem nodup_of_pairwise_x {pts : List Point}
    (hx : List.Pairwise (fun p q => p.x ≠ q.x) pts) : pts.Nodup :=
  hx.imp (fun h hc => h (congrArg Point.x hc))

/-- On a list with pairwise distinct x, removing the `i`-th element is
the same as erasing (the unique occurrence of) the point stored
there. -/
theorem eraseIdx_eq_erase {pts : List Point}
    (hx : List.Pairwise (fun p q => p.x ≠ q.x) pts) (i : Nat) (p : Point)
    (hi : i < pts.length) (hp : pts[i] = p) :
    pts.eraseIdx i = pts.erase p := by
  induction pts generalizing i with
  | nil =>
    exact absurd hi (by simp)
  | cons a rest ih =>
    cases i with
    | zero =>
      have ha : a = p := hp
      subst ha
      rw [List.eraseIdx_cons_zero, List.erase_cons_head]
    | succ j =>
      have hj : j < rest.length := by simpa using hi
      have hp' : rest[j] = p := by simpa using hp
      have hmem : p ∈ rest := hp' ▸ List.getElem_mem hj
      have hax : a.x ≠ p.x := (List.pairwise_cons.mp hx).1 p hmem
      have hane : ¬ (a == p) = true := by
        rw [beq_iff_eq]
        intro hc
        exact hax (congrArg Point.x hc)
      rw [List.eraseIdx_cons_succ, List.erase_cons_tail hane,
        ih (List.pairwise_cons.mp hx).2 j hj hp']

/-- On a list with pairwise distinct x, every point in the list with
the `i`-th element removed has an x different from the `i`-th point. -/
theorem mem_eraseIdx_x_ne {pts : List Point}
    (hx : List.Pairwise (fun p q => p.x ≠ q.x) pts) {i : Nat} {p : Point}
    (hi : i < pts.length) (hp : pts[i] = p) :
    ∀ r ∈ pts.eraseIdx i, r.x ≠ p.x := by
  intro r hr
  rw [eraseIdx_eq_erase hx i p hi hp] at hr
  obtain ⟨hrp, hrin⟩ := (List.Nodup.mem_erase_iff (nodup_of_pairwise_x hx)).mp hr
  have hpin : p ∈ pts := hp ▸ List.getElem_mem hi
  have hsymm : Symmetric (fun p q : Point => p.x ≠ q.x) := fun _ _ hab => Ne.symm hab
  exact List.Pairwise.forall hsymm hx hrin hpin hrp

/-- On a list with pairwise distinct x, the basis denominator product
of the `i`-th point is nonzero. -/
theorem den_prod_ne_zero {pts : List Point}
    (hx : List.Pairwise (fun p q => p.x ≠ q.x) pts) {i : Nat} {p : Point}
    (hi : i < pts.length) (hp : pts[i] = p) :
    ((pts.eraseIdx i).map (fun r => p.x - r.x)).prod ≠ 0 := by
  apply List.prod_ne_zero
  intro h0
  rw [List.mem_map] at h0
  obtain ⟨r, hr, hr0⟩ := h0
  have hne : r.x ≠ p.x := mem_eraseIdx_x_ne hx hi hp r hr
  apply hne
  omega

/-! ## Theorems: the evaluator computes the exact rational sum -/

/-- One iteration of the outer loop adds the exact rational value of
the corresponding Lagrange term to the accumulated fraction. -/
theorem lagrangeStep_fracOf (pts : List Point) (q : ℚ) (i : Nat) (p : Point)
    (hden : ((pts.eraseIdx i).map (fun r => p.x - r.x)).prod ≠ 0) :
    lagrangeStep pts (fracOf q) (i, p) =
      Except.ok (fracOf (q + termQ (pts.eraseIdx i) p)) := by
  simp only [lagrangeStep, basisNumDen_eq]
  rw [simplify_eq_ok hden, except_bind_ok]
  rw [show ((p.y : Int), (1 : Int)) = fracOf ((p.y : Int) : ℚ) from (fracOf_intCast p.y).symm]
  rw [mulFrac_fracOf, except_bind_ok, addFrac_fracOf]
  rfl

/-- Accumulator-generalized outer loop: over any batch of
position/point pairs that are correct lookups into `pts`, the fold adds
the exact rational values of all their Lagrange terms. -/
theorem lagrangeFold_fracOf (pts : List Point)
    (hx : List.Pairwise (fun p q => p.x ≠ q.x) pts) :
    ∀ (l : List (Nat × Point)) (q : ℚ),
      (∀ ip ∈ l, ∃ hlt : ip.1 < pts.length, pts[ip.1] = ip.2) →
      l.foldlM (lagrangeStep pts) (fracOf q) =
        Except.ok (fracOf (q + (l.map (fun ip => termQ (pts.eraseIdx ip.1) ip.2)).sum)) := by
  intro l
  induction l with
  | nil =>
    intro q _
    rw [List.foldlM_nil]
    show Except.ok (fracOf q) = _
    simp
  | cons ip l ih =>
    intro q h
    rcases ip with ⟨i, p⟩
    obtain ⟨hlt, hp⟩ := h (i, p) (List.mem_cons_self (i, p) l)
    rw [List.foldlM_cons]
    rw [lagrangeStep_fracOf pts q i p (den_prod_ne_zero hx hlt hp)]
    rw [except_bind_ok]
    rw [ih (q + termQ (pts.eraseIdx i) p)
      (fun x hx' => h x (List.mem_cons_of_mem _ hx'))]
    rw [List.map_cons, List.sum_cons, add_assoc]

/-- Every entry of `pts.enum` is a correct position/point lookup. -/
theorem mem_enum_getElem (pts : List Point) :
    ∀ ip ∈ pts.enum, ∃ hlt : ip.1 < pts.length, pts[ip.1] = ip.2 := by
  intro ip hip
  rcases ip with ⟨i, p⟩
  rw [List.enum_eq_enumFrom] at hip
  obtain ⟨-, hlen, heq⟩ := List.mem_enumFrom hip
  have hlt : i < pts.length := by omega
  exact ⟨hlt, heq.symm⟩

/-- On a list with pairwise distinct x, the indexed sum of terms over
the enumeration equals `idealSum`. -/
theorem enum_sum_eq_idealSum (pts : List Point)
    (hx : List.Pairwise (fun p q => p.x ≠ q.x) pts) :
    (pts.enum.map (fun ip => termQ (pts.eraseIdx ip.1) ip.2)).sum = idealSum pts := by
  rw [idealSum]
  have hmap : pts.enum.map (fun ip => termQ (pts.eraseIdx ip.1) ip.2)
      = pts.enum.map (fun ip => termQ (pts.erase ip.2) ip.2) := by
    apply List.map_congr_left
    intro ip hip
    obtain ⟨hlt, hp⟩ := mem_enum_getElem pts ip hip
    rw [eraseIdx_eq_erase hx ip.1 ip.2 hlt hp]
  rw [hmap]
  rw [show (fun ip : Nat × Point => termQ (pts.erase ip.2) ip.2)
      = (fun p => termQ (pts.erase p) p) ∘ Prod.snd from rfl]
  rw [← List.map_map, List.enum_map_snd]

/-- On a list with pairwise distinct x, the evaluator returns the
truncated quotient of the canonical fraction of the exact Lagrange
sum. -/
theorem lagrange_eq_tdiv_idealSum (pts : List Point)
    (hx : List.Pairwise (fun p q => p.x ≠ q.x) pts) :
    lagrangeInterpolationAtZero pts =
      Except.ok ((idealSum pts).num.tdiv ((idealSum pts).den : Int)) := by
  simp only [lagrangeInterpolationAtZero]
  rw [show (((0 : Int), (1 : Int)) : Frac) = fracOf ((0 : Int) : ℚ) from
    (fracOf_intCast 0).symm]
  rw [lagrangeFold_fracOf pts hx pts.enum _ (mem_enum_getElem pts)]
  rw [except_bind_ok]
  rw [show ((0 : Int) : ℚ) = (0 : ℚ) from Int.cast_zero, zero_add]
  rw [enum_sum_eq_idealSum pts hx]
  have hden : ¬ ((fracOf (idealSum pts)).2 = 0) := by
    simp only [fracOf]
    exact_mod_cast (idealSum pts).den_nz
  rw [if_neg hden]
  rfl

/-! ## Theorems: permutation invariance of the exact sum -/

theorem termQ_perm {l1 l2 : List Point} (h : l1.Perm l2) (p : Point) :
    termQ l1 p = termQ l2 p := by
  rw [termQ, termQ, basisQ, basisQ]
  rw [(h.map (fun q => 0 - q.x)).prod_eq, (h.map (fun q => p.x - q.x)).prod_eq]

theorem idealSum_perm {l1 l2 : List Point} (h : l1.Perm l2) :
    idealSum l1 = idealSum l2 := by
  rw [idealSum, idealSum]
  rw [List.map_congr_left (fun p _ => termQ_perm (h.erase p) p)]
  exact (h.map _).sum_eq

/-- C3: for every list of points with pairwise distinct x and every
permutation of it, the evaluator returns the same result on the
permuted list as on the original list. -/
theorem lagrange_perm_invariant (pts1 pts2 : List Point)
    (hx : List.Pairwise (fun p q => p.x ≠ q.x) pts1) (hperm : pts1.Perm pts2) :
    lagrangeInterpolationAtZero pts2 = lagrangeInterpolationAtZero pts1 := by
  have hx2 : List.Pairwise (fun p q => p.x ≠ q.x) pts2 :=
    (List.Perm.pairwise_iff (fun hxy => Ne.symm hxy) hperm).mp hx
  rw [lagrange_eq_tdiv_idealSum pts1 hx, lagrange_eq_tdiv_idealSum pts2 hx2,
    idealSum_perm hperm]

/-- C3 witness at a concrete pair of permuted lists. -/
theorem lagrange_perm_invariant_witness :
    lagrangeInterpolationAtZero [⟨2, 7⟩, ⟨1, 4⟩] =
      lagrangeInterpolationAtZero [⟨1, 4⟩, ⟨2, 7⟩] :=
  lagrange_perm_invariant [⟨1, 4⟩, ⟨2, 7⟩] [⟨2, 7⟩, ⟨1, 4⟩] (by decide) (by decide)

end SSS
